/-
Verification of the schedule compilation pipeline of django-lass-schedule.

This file shallowly embeds the schedule utilities (filler engine, block
classifier, schedule-object builder, local-time utilities, week tabulator)
as executable Lean definitions and proves/refutes the frozen claims about
them.

Conventions of the embedding:

* Absolute (timezone-aware) datetimes and naive-local datetimes are both
  integers counting seconds; timedeltas are integer second counts.
* The database (Term, Timeslot, Show, Block and rule tables) is an explicit
  `Env` record passed to every function that queries it in the source.
* `Timeslot.end_time` is a Python `@property` whose value is a datetime.
  The source `filler.py` *calls* it (`slot.end_time()`), which in Python
  raises `TypeError: 'datetime' object is not callable`.  We therefore model
  the filler twice, at two levels of fidelity:
  - `fill` (with helpers `end_before`, `start_after`, `timeslotVal`) embeds
    the filling algorithm with `end_time` read as the property value (the
    evident intent of the code);
  - `fillPy` (with `endBeforePy`) embeds Python's dynamic semantics, in
    which every evaluation of `slot.end_time()` raises `TypeError`.
* Python exceptions are the `PyErr` error type of `Except`; truthiness of
  block primary keys is modelled by using `0` for Python's `False` (Python
  itself conflates `False` and `0` in the `if match:` tests of block.py,
  and real primary keys are positive).
-/
import Mathlib

namespace LassSchedule

/-! ## Data model (schedule/models) -/

/-- Python exception classes raised by the embedded code. -/
inductive PyErr where
  | typeError             -- e.g. calling a datetime object
  | valueError            -- e.g. `fill` with start > end, filler outside a term
  | doesNotExist          -- Django `DoesNotExist` (missing filler show)
  | keyError              -- dict lookup failure (`blocks[match]`)
  | attributeError        -- missing module/object attribute
  | scheduleInconsistency -- schedule.utils.exceptions.ScheduleInconsistencyError
deriving Repr, DecidableEq

/-- A university term (schedule/models/term.py): `start_date < end_date`
holds for well-formed data but is not assumed. -/
structure Term where
  start_date : Int
  end_date : Int
deriving Repr, DecidableEq

/-- A schedule timeslot (schedule/models/timeslot.py).  `start_time` is an
absolute datetime, `duration` a timedelta.  `show` is the primary key
reached through `season.show`; `is_public` models membership of the public
season queryset; `is_collapsible` models `show_type.is_collapsible`. -/
structure Timeslot where
  start_time : Int
  duration : Int
  showId : Nat := 0   -- named `show` in the source; `show` is a Lean keyword
  is_public : Bool := true
  is_collapsible : Bool := false
deriving Repr, DecidableEq

/-- The `Timeslot.end_time` property: `start_time + duration`
(timeslot.py, lines 128-131). -/
def Timeslot.end_time (ts : Timeslot) : Int :=
  ts.start_time + ts.duration

/-- A programming block (schedule/models/block.py).  A lower `priority`
number means a higher priority. -/
structure Block where
  id : Nat
  priority : Int
deriving Repr, DecidableEq

/-- A `BlockShowRule` row (block_direct_rule.py): pins `show` to `block`. -/
structure ShowRule where
  block : Nat
  showId : Nat   -- named `show` in the source; `show` is a Lean keyword
deriving Repr, DecidableEq

/-- A `BlockRangeRule` row (block.py models): a local time-of-day window
`[start_time, end_time)` (timedeltas in seconds) attached to `block`. -/
structure RangeRule where
  block : Nat
  start_time : Int
  end_time : Int
deriving Repr, DecidableEq

/-- The ambient database state consulted by the schedule utilities. -/
structure Env where
  terms : List Term := []
  storedSlots : List Timeslot := []   -- Timeslot.objects
  fillerShow : Option Nat := none     -- Show.objects.get(show_type__name__iexact='filler')
  blocks : List Block := []           -- Block.objects.all()
  showRules : List ShowRule := []     -- BlockShowRule.objects
  rangeRules : List RangeRule := []   -- BlockRangeRule.objects
  defaultBlock : Nat := 2             -- getattr(settings, 'DEFAULT_SHOW_BLOCK', 2)
deriving Repr

/-! ## Term resolution (Term.of / Term.before, term.py lines 69-103)

`query.latest()` uses `get_latest_by = 'start_date'`: it returns the row
with the maximal `start_date` (ties resolved arbitrarily by the database;
we keep the first such row). -/

/-- One-pass selection of the "best" row of a queryset (used to model
`latest()` / `order_by(...)[0]`): keeps the current row unless `better`
prefers the new one, so ties keep the earlier row. -/
def chooseBy {α : Type} (better : α → α → Bool) (l : List α) : Option α :=
  l.foldl
    (fun acc t =>
      match acc with
      | none => some t
      | some a => if better a t then some t else some a)
    none

/-- The row with maximal `start_date` of a term queryset, or `none`. -/
def latestTerm (l : List Term) : Option Term :=
  chooseBy (fun a t => decide (a.start_date < t.start_date)) l

/-- The `Term.of(date)`: the term with `start_date <= date < end_date`. -/
def Term.of (env : Env) (date : Int) : Option Term :=
  latestTerm (env.terms.filter
    (fun t => decide (t.start_date ≤ date ∧ date < t.end_date)))

/-- The `Term.before(date)`: the latest term with
`start_date <= date` and `end_date <= date`. -/
def Term.before (env : Env) (date : Int) : Option Term :=
  latestTerm (env.terms.filter
    (fun t => decide (t.start_date ≤ date ∧ t.end_date ≤ date)))

/-- The `filler.term`: `Term.of(start_time)`, falling back to
`Term.before(start_time)` (filler.py lines 63-78). -/
def fillerTerm (env : Env) (start_time : Int) : Option Term :=
  match Term.of env start_time with
  | some t => some t
  | none => Term.before env start_time

/-! ## Local-time utilities (nltime.py, range.py)

A timezone is modelled as a single DST transition at absolute time `T`:
UTC offset `o1` before `T` and `o2` from `T` on (a spring-forward
transition has `o1 < o2`; `o1 = o2` is a fixed-offset zone). -/

structure TZ where
  T : Int
  o1 : Int
  o2 : Int
deriving Repr, DecidableEq

/-- The zone's UTC offset at absolute time `t`. -/
def TZ.offset (tz : TZ) (t : Int) : Int :=
  if t < tz.T then tz.o1 else tz.o2

/-- The `nltime.nld`: the naive-local (wall-clock) reading of an absolute
datetime. -/
def nld (tz : TZ) (t : Int) : Int :=
  t + tz.offset t

/-- The `nltime.un_nld` / `timezone.make_aware` with the full zone rules: the
absolute time whose wall clock reads `w`, or `none` when `w` falls in the
gap of a spring-forward transition (where pytz `localize(..., is_dst=None)`
raises). -/
def makeAware (tz : TZ) (w : Int) : Option Int :=
  if w < tz.T + tz.o1 then some (w - tz.o1)
  else if tz.T + tz.o2 ≤ w then some (w - tz.o2)
  else none

/-- Seconds per day. -/
def daySecs : Int := 86400

/-- The `range.dst_add_days` (range.py lines 14-40) on an aware datetime:
strip to naive local, add the days arithmetically, re-interpret in the
zone. -/
def dst_add_days (tz : TZ) (t : Int) (num_days : Int) : Option Int :=
  makeAware tz (nld tz t + num_days * daySecs)

/-- The `block.delta` (block.py lines 111-122): local seconds since midnight.
`date.replace(hour=0, ...)` zeroes the wall-clock fields while keeping the
datetime's pinned offset, so the aware midnight is `t - tod` where `tod`
is the wall time-of-day at `t`'s own offset; `nldiff` then re-reads both
ends with the real zone rules. -/
def delta (tz : TZ) (t : Int) : Int :=
  let tod := (t + tz.offset t) % daySecs
  nld tz t - nld tz (t - tod)

/-! ## Filler engine (filler.py), value-level semantics

These definitions read `end_time` as the property value.  The Python-level
semantics (where `end_time()` raises) follows further below as `fillPy`. -/

/-- The `filler.end_before(time)` (filler.py lines 131-145): the `end_time` of
the stored timeslot with maximal `start_time` among those with
`start_time <= time - duration`, or `time` itself if there is none
(`latest()` uses `get_latest_by = 'start_time'`). -/
def latestSlot (l : List Timeslot) : Option Timeslot :=
  chooseBy (fun a t => decide (a.start_time < t.start_time)) l

def end_before (env : Env) (time : Int) : Int :=
  match latestSlot (env.storedSlots.filter
      (fun ts => decide (ts.start_time ≤ time - ts.duration))) with
  | some ts => ts.end_time
  | none => time

/-- The `filler.start_after(time)` (filler.py lines 148-161): the `start_time`
of the stored timeslot with minimal `start_time` among those with
`start_time >= time`, or `time` itself. -/
def earliestSlot (l : List Timeslot) : Option Timeslot :=
  chooseBy (fun a t => decide (t.start_time < a.start_time)) l

def start_after (env : Env) (time : Int) : Int :=
  match earliestSlot (env.storedSlots.filter
      (fun ts => decide (time ≤ ts.start_time))) with
  | some ts => ts.start_time
  | none => time

/-- The `filler.timeslot(start_time, end_time)` (filler.py lines 101-126) as
called by `fill` (always with an explicit end, never a duration): builds a
filler timeslot with `duration = end_time - start_time` after `season`
resolves a term (raising `ValueError` if none: "Tried to create filler
show outside a term.") and the filler show is looked up (raising
`DoesNotExist` if missing).  The filler show's type is collapsible. -/
def timeslotVal (env : Env) (start_time end_time : Int) :
    Except PyErr Timeslot :=
  match fillerTerm env start_time with
  | none => .error .valueError
  | some _ =>
    match env.fillerShow with
    | none => .error .doesNotExist
    | some sh =>
      .ok { start_time := start_time,
            duration := end_time - start_time,
            showId := sh,
            is_public := true,
            is_collapsible := true }

/-- The `filled_timeslots[-1].end_time` read as a value (0 on an empty list;
the source only evaluates it on non-empty lists). -/
def lastEnd (l : List Timeslot) : Int :=
  match l.getLast? with
  | some t => t.end_time
  | none => 0

/-- The `timeslots[0].start_time` of a list (0 on an empty list). -/
def headStart (l : List Timeslot) : Int :=
  match l.head? with
  | some t => t.start_time
  | none => 0

/-- The pairwise walk of `fill` (filler.py lines 200-211): compare each
new slot to the last inserted slot (`filled_timeslots and
filled_timeslots[-1].end_time < ts.start_time`, short-circuiting on the
empty accumulator) and bridge any gap with a filler slot. -/
def fillLoop (env : Env) (acc rest : List Timeslot) :
    Except PyErr (List Timeslot) :=
  match rest with
  | [] => .ok acc
  | ts :: rest2 =>
    match acc with
    | [] => fillLoop env [ts] rest2
    | _ :: _ =>
      if lastEnd acc < ts.start_time then
        match timeslotVal env (lastEnd acc) ts.start_time with
        | .ok f => fillLoop env (acc ++ [f, ts]) rest2
        | .error er => .error er
      else fillLoop env (acc ++ [ts]) rest2

/-- The body of `filler.fill` after its inverted-range guard (filler.py
lines 181-220), with `end_time` read as the property value. -/
def fillBody (env : Env) (start_time end_time : Int) :
    List Timeslot → Except PyErr (List Timeslot)
  | [] =>
    (timeslotVal env (end_before env start_time)
      (start_after env end_time)).map (fun f => [f])
  | ts0 :: stail =>
    match
      (if start_time < ts0.start_time then
        (timeslotVal env (end_before env start_time)
          ts0.start_time).map (fun f => [f])
      else .ok []) with
    | .error er => (.error er : Except PyErr (List Timeslot))
    | .ok pre =>
      match fillLoop env pre (ts0 :: stail) with
      | .error er => .error er
      | .ok mid =>
        if lastEnd mid < end_time then
          (timeslotVal env (lastEnd mid)
            (start_after env end_time)).map (fun f => mid ++ [f])
        else .ok mid

/-- The `filler.fill(timeslots, start_time, end_time)` (filler.py lines
166-220), with `end_time` read as the property value. -/
def fill (env : Env) (timeslots : List Timeslot) (start_time end_time : Int) :
    Except PyErr (List Timeslot) :=
  if start_time > end_time then .error .valueError
  else fillBody env start_time end_time timeslots

/-! ## Filler engine, Python-level semantics

`Timeslot.end_time` is a `@property` (timeslot.py lines 128-131), so its
value is a datetime; `filler.py` nevertheless *calls* it
(`slots.latest().end_time()` at line 142, `filled_timeslots[-1].end_time()`
at lines 202, 207 and 213).  Calling a datetime raises `TypeError` in
Python.  The following definitions model exactly where those calls are
evaluated. -/

/-- The `end_before` under Python semantics: when the queryset is non-empty,
`slots.latest().end_time()` is evaluated and raises `TypeError`; otherwise
the `DoesNotExist` handler returns `time`. -/
def endBeforePy (env : Env) (time : Int) : Except PyErr Int :=
  match latestSlot (env.storedSlots.filter
      (fun ts => decide (ts.start_time ≤ time - ts.duration))) with
  | some _ => .error .typeError   -- .end_time() called on a datetime
  | none => .ok time

/-- The `start_after` reads the plain attribute `start_time` and so never
raises. -/
def startAfterPy (env : Env) (time : Int) : Int :=
  start_after env time

/-- The `for ts in timeslots` loop of `fill` under Python semantics: the
condition `filled_timeslots and (filled_timeslots[-1].end_time() < ...)`
short-circuits on an empty accumulator; with a non-empty accumulator the
`.end_time()` call raises before the comparison happens. -/
def fillPyLoop (acc rest : List Timeslot) : Except PyErr (List Timeslot) :=
  match rest with
  | [] => .ok acc
  | ts :: rest2 =>
    match acc with
    | [] => fillPyLoop [ts] rest2
    | _ :: _ => .error .typeError   -- filled_timeslots[-1].end_time()

/-- The body of `filler.fill` after its guard, under Python semantics. -/
def fillPyBody (env : Env) (start_time end_time : Int) :
    List Timeslot → Except PyErr (List Timeslot)
  | [] =>
    match endBeforePy env start_time with
    | .error er => .error er
    | .ok b =>
      (timeslotVal env b (startAfterPy env end_time)).map (fun f => [f])
  | ts0 :: stail =>
    match
      (if start_time < ts0.start_time then
        match endBeforePy env start_time with
        | .error er => (.error er : Except PyErr (List Timeslot))
        | .ok b => (timeslotVal env b ts0.start_time).map (fun f => [f])
      else .ok []) with
    | .error er => (.error er : Except PyErr (List Timeslot))
    | .ok pre =>
      match fillPyLoop pre (ts0 :: stail) with
      | .error er => .error er
      | .ok _ =>
        -- `if filled_timeslots[-1].end_time() < end_time:` -- the list is
        -- non-empty here (timeslots is non-empty), so the call is always
        -- evaluated and raises.
        .error .typeError

/-- The `filler.fill` under Python semantics (filler.py lines 166-220). -/
def fillPy (env : Env) (timeslots : List Timeslot)
    (start_time end_time : Int) : Except PyErr (List Timeslot) :=
  if start_time > end_time then .error .valueError
  else fillPyBody env start_time end_time timeslots

/-! ## Block classifier (utils/block.py) -/

/-- One `BlockRangeRule` test of `hook_range` (block.py lines 58-70): the
slot's midnight delta, or that delta projected forward a day, must fall in
`[start_time, end_time)`. -/
def rangeRuleMatches (rule : RangeRule) (dtime : Int) : Bool :=
  (decide (rule.start_time ≤ dtime) && decide (dtime < rule.end_time)) ||
    (decide (rule.start_time ≤ dtime + daySecs) &&
      decide (dtime + daySecs < rule.end_time))

/-- The scan of `hook_range`'s inner function over the (start_time-ordered)
rules: the first rule that matches with a truthy block pk wins; a matching
rule with pk 0 (falsy) fails the `if match:` test and scanning continues,
just as in Python. -/
def hookRangeGo (dtime : Int) : List RangeRule → Nat
  | [] => 0
  | r :: rest =>
    if rangeRuleMatches r dtime && decide (r.block ≠ 0) then r.block
    else hookRangeGo dtime rest

/-- The `hook_range()` (block.py lines 48-73): rules are fetched ordered by
`start_time`; returns the matched block pk, or 0 (Python `False`). -/
def hookRange (rules : List RangeRule) (tz : TZ) (ts : Timeslot) : Nat :=
  hookRangeGo (delta tz ts.start_time)
    (List.insertionSort (fun a b => a.start_time ≤ b.start_time) rules)

/-- The `hook_show()` (block.py lines 76-90): the first rule whose `show`
equals the slot's show pk wins (same truthiness treatment as above). -/
def hookShowGo (sh : Nat) : List ShowRule → Nat
  | [] => 0
  | r :: rest =>
    if sh = r.showId && r.block ≠ 0 then r.block else hookShowGo sh rest

def hookShow (rules : List ShowRule) (ts : Timeslot) : Nat :=
  hookShowGo ts.showId rules

/-- The `hook_default()` (block.py lines 93-95). -/
def hookDefault (env : Env) : Timeslot → Nat :=
  fun _ => env.defaultBlock

/-- The `HOOKS` (block.py lines 101-105), already "prepared" by calling each
delayed-computation hook: show rules, then range rules, then default. -/
def preparedHooks (env : Env) (tz : TZ) : List (Timeslot → Nat) :=
  [hookShow env.showRules, hookRange env.rangeRules tz, hookDefault env]

/-- The `blocks` dict built by `annotate` (block.py line 32): pk-keyed lookup
of all blocks; a missing key raises `KeyError`. -/
def lookupBlock (blocks : List Block) (pk : Nat) : Option Block :=
  blocks.find? (fun b => b.id = pk)

/-- The `annotate_slot(slot, blocks, hooks)` (block.py lines 38-45).  The
injected `block` attribute is modelled as the second component of the
result pair; `none` means no hook matched and the attribute was never
set. -/
def annotateSlot (blocks : List Block) (hooks : List (Timeslot → Nat))
    (ts : Timeslot) : Except PyErr (Timeslot × Option Block) :=
  match hooks with
  | [] => .ok (ts, none)
  | h :: rest =>
    let m := h ts
    if m ≠ 0 then
      match lookupBlock blocks m with
      | some b => .ok (ts, some b)
      | none => .error .keyError    -- blocks[match]
    else annotateSlot blocks rest ts

/-- The `annotate(slotlist)` (block.py lines 18-35): the list comprehension
`[annotate_slot(slot, blocks, prepared_hooks) for slot in slotlist]`,
evaluated left to right with exceptions propagating. -/
def annotate (env : Env) (tz : TZ) :
    List Timeslot → Except PyErr (List (Timeslot × Option Block))
  | [] => .ok []
  | s :: rest =>
    match annotateSlot env.blocks (preparedHooks env tz) s with
    | .error er => .error er
    | .ok a =>
      match annotate env tz rest with
      | .error er => .error er
      | .ok l => .ok (a :: l)

/-! ## Schedule object and standard builder (utils/object.py) -/

/-- The names defined at top level of module `schedule.utils.range`
(range.py): imports and the two definitions.  There is no `dst_add`. -/
def rangeModuleAttrs : List String :=
  ["Timeslot", "filler", "timedelta", "timezone", "in_range",
   "dst_add_days", "ScheduleRange"]

/-- Python attribute lookup on module `schedule.utils.range`; a missing
name raises `AttributeError`. -/
def rangeModuleGetattr (name : String) : Except PyErr Unit :=
  if name ∈ rangeModuleAttrs then .ok () else .error .attributeError

/-- The `Schedule.__init__(start, range, builder)` (object.py lines 26-46):
computes `self.end = r.dst_add(start, range)`.  The state of a
successfully constructed schedule would be `(start, end, range)`. -/
def scheduleInit (start range : Int) : Except PyErr (Int × Int × Int) :=
  match rangeModuleGetattr "dst_add" with
  | .error er => .error er
  | .ok _ => .ok (start, start + range, range)

/-- The `DaySchedule.__init__` (object.py lines 111-117): delegates to
`Schedule.__init__` with a one-day range. -/
def dayScheduleInit (start : Int) : Except PyErr (Int × Int × Int) :=
  scheduleInit start daySecs

/-- The `WeekSchedule.__init__` (object.py lines 143-149): delegates to
`Schedule.__init__` with a one-week range, from the Monday of `start`'s
week (`to_monday` modelled on day numbers with day 0 a Monday). -/
def weekScheduleInit (start : Int) : Except PyErr (Int × Int × Int) :=
  scheduleInit (start - (start / daySecs % 7) * daySecs) (7 * daySecs)

/-- The result of `range_builder` (object.py lines 193-229): either
annotated slot data or one of the sentinel strings `'empty'` /
`'not_in_term'`. -/
inductive BuildResult where
  | slotData (l : List (Timeslot × Option Block))
  | empty        -- the string 'empty'
  | notInTerm    -- the string 'not_in_term'
deriving Repr, DecidableEq

/-- The `Timeslot.objects.public().in_range(start, end)` as used by
`range_builder`: public slots with `start_time > start - duration` (i.e.
ending strictly after `start`) and `start_time < end`, in the model's
default ordering `start_time`. -/
def inRangeQuery (env : Env) (start_time end_time : Int) : List Timeslot :=
  List.insertionSort (fun a b => a.start_time ≤ b.start_time)
    (env.storedSlots.filter
      (fun ts => ts.is_public && decide (start_time < ts.end_time) &&
        decide (ts.start_time < end_time)))

/-- The `range_builder(schedule)` (object.py lines 193-229).  With no term
containing `start` it returns `'empty'` when `Term.before(start)` is also
absent, and `'not_in_term'` when a prior term exists, raising nothing;
otherwise it queries, fills (Python semantics) and annotates. -/
def range_builder (env : Env) (tz : TZ) (start_time end_time : Int) :
    Except PyErr BuildResult :=
  match Term.of env start_time with
  | none =>
    .ok (if Term.before env start_time = none then .empty else .notInTerm)
  | some _ =>
    let slots := inRangeQuery env start_time end_time
    if slots.isEmpty then .ok .empty
    else
      match fillPy env slots start_time end_time with
      | .error er => .error er
      | .ok filled => (annotate env tz filled).map .slotData

/-! ## Week tabulator (utils/week_table.py), population step

`populate_table_day` (week_table.py lines 225-267) walks one day's slots
against the table's row boundaries.  The table is modelled by the sorted
list `times` of naive-local row start datetimes together with one day
column of cells; in-place cell assignment (`make_add_to_table`,
lines 289-308) is modelled as a pointwise function update (every write
lands at `start_row < current_row <= times.length`, so Python's list
indexing never fails there). -/

/-- The `while row_date(current_row) < nlend: current_row += 1` loop,
counted over the remaining row boundaries; walking off the end of the
table raises `IndexError`, which the source catches (`hit_bottom`). -/
def advanceCount (off nlend : Int) : List Int → Nat
  | [] => 0
  | t :: rest => if t + off < nlend then advanceCount off nlend rest + 1 else 0

/-- The empty day column (`empty_table`, week_table.py line 198: `None`
in every row cell). -/
def initCells : Nat → Option (Timeslot × Nat) :=
  fun _ => none

/-- The `add_to_table(row, slot, rows)` (`make_add_to_table`, week_table.py
lines 289-308): writes `(slot, rows)` into the day cell at `row` only
when `rows > 0`. -/
def writeCell (c : Nat → Option (Timeslot × Nat)) (row : Nat)
    (slot : Timeslot) (span : Nat) : Nat → Option (Timeslot × Nat) :=
  if 0 < span then
    fun j => if j = row then some (slot, span) else c j
  else c

/-- One slot's processing inside `populate_table_day`: advance to the
first row boundary at or past the slot's local end (or the table bottom),
raise `ScheduleInconsistencyError` when the boundary overshoots the end
without hitting bottom, then `add_to_table(start_row, slot, span)`. -/
def popStep (tz : TZ) (times : List Int) (off : Int)
    (st : Nat × (Nat → Option (Timeslot × Nat))) (slot : Timeslot) :
    Except PyErr (Nat × (Nat → Option (Timeslot × Nat))) :=
  let nlend := nld tz slot.end_time
  let r2 := st.1 + advanceCount off nlend (times.drop st.1)
  if r2 < times.length ∧ nlend < times.getD r2 0 + off then
    .error .scheduleInconsistency
  else
    .ok (r2, writeCell st.2 st.1 slot (r2 - st.1))

/-- The `populate_table_day(row_date, add_to_table, day)` for the day column
`off` days after the schedule start: fold the day's slots from row 0 over
an all-`None` column. -/
def populate_table_day (tz : TZ) (times : List Int) (off : Int)
    (day : List Timeslot) :
    Except PyErr (Nat × (Nat → Option (Timeslot × Nat))) :=
  day.foldlM (popStep tz times off) (0, initCells)

/-- Observation of one cell of a population result (used to state the
tabulation claims without comparing whole cell functions). -/
def cellsAt (r : Except PyErr (Nat × (Nat → Option (Timeslot × Nat))))
    (j : Nat) : Option (Option (Timeslot × Nat)) :=
  match r with
  | .ok st => some (st.2 j)
  | .error _ => none

/-! ## General helper facts -/

instance {ε α : Type} [DecidableEq ε] [DecidableEq α] :
    DecidableEq (Except ε α) := fun x y =>
  match x, y with
  | .ok a, .ok b =>
    if h : a = b then isTrue (by rw [h])
    else isFalse (fun hc => h (Except.ok.inj hc))
  | .error a, .error b =>
    if h : a = b then isTrue (by rw [h])
    else isFalse (fun hc => h (Except.error.inj hc))
  | .ok _, .error _ => isFalse (fun hc => Except.noConfusion hc)
  | .error _, .ok _ => isFalse (fun hc => Except.noConfusion hc)

/-- Whatever `chooseBy` picks is a member of the list. -/
theorem chooseBy_mem {α : Type} (better : α → α → Bool) :
    ∀ (l : List α) (x : α), chooseBy better l = some x → x ∈ l := by
  have aux : ∀ (l : List α) (a x : α),
      l.foldl
        (fun acc t =>
          match acc with
          | none => some t
          | some b => if better b t then some t else some b)
        (some a) = some x → x = a ∨ x ∈ l := by
    intro l
    induction l with
    | nil => intro a x h; left; exact (Option.some.inj h).symm
    | cons t l ih =>
      intro a x h
      simp only [List.foldl] at h
      by_cases hb : better a t
      · simp only [hb, if_pos] at h
        rcases ih t x h with h1 | h1
        · right; simp [h1]
        · right; simp [h1]
      · simp only [hb, if_neg, Bool.false_eq_true, not_false_iff] at h
        rcases ih a x h with h1 | h1
        · left; exact h1
        · right; simp [h1]
  intro l x h
  cases l with
  | nil => simp [chooseBy] at h
  | cons t l =>
    simp only [chooseBy, List.foldl] at h
    rcases aux l t x h with h1 | h1
    · simp [h1]
    · simp [h1]

/-- The `end_before` never returns a time after its argument (the queryset
keeps only slots with `start_time <= time - duration`, i.e. slots ending
at or before `time`). -/
theorem end_before_le (env : Env) (time : Int) : end_before env time ≤ time := by
  unfold end_before
  cases h : latestSlot (env.storedSlots.filter
      (fun ts => decide (ts.start_time ≤ time - ts.duration))) with
  | none => exact le_refl time
  | some ts =>
    have hmem := chooseBy_mem _ _ _ h
    have hp := (List.mem_filter.mp hmem).2
    have : ts.start_time ≤ time - ts.duration := of_decide_eq_true hp
    simp only [Timeslot.end_time]
    omega

/-- The `start_after` never returns a time before its argument. -/
theorem start_after_ge (env : Env) (time : Int) : time ≤ start_after env time := by
  unfold start_after
  cases h : earliestSlot (env.storedSlots.filter
      (fun ts => decide (time ≤ ts.start_time))) with
  | none => exact le_refl time
  | some ts =>
    have hmem := chooseBy_mem _ _ _ h
    have hp := (List.mem_filter.mp hmem).2
    exact of_decide_eq_true hp

/-- A successfully created filler slot spans exactly the requested
interval. -/
theorem timeslotVal_shape (env : Env) (a b : Int) (f : Timeslot)
    (h : timeslotVal env a b = .ok f) :
    f.start_time = a ∧ f.end_time = b := by
  unfold timeslotVal at h
  cases ht : fillerTerm env a with
  | none => rw [ht] at h; exact absurd h (by simp)
  | some _ =>
    rw [ht] at h
    cases hs : env.fillerShow with
    | none => rw [hs] at h; exact absurd h (by simp)
    | some sh =>
      rw [hs] at h
      have := Except.ok.inj h
      subst this
      refine ⟨rfl, ?_⟩
      simp [Timeslot.end_time]

/-! ## Relations for contiguity claims -/

/-- No-gap relation: the successor starts at or before the predecessor's end. -/
def gapRel (a b : Timeslot) : Prop := b.start_time ≤ a.end_time

/-- Exact contiguity: the successor starts exactly at the predecessor's
end (`result[i].end_time == result[i+1].start_time`). -/
def contigRel (a b : Timeslot) : Prop := a.end_time = b.start_time

/-- Non-overlap of consecutive slots: the predecessor ends at or before
the successor starts. -/
def sepRel (a b : Timeslot) : Prop := a.end_time ≤ b.start_time

/-- Sortedness by start time. -/
def sortedRel (a b : Timeslot) : Prop := a.start_time ≤ b.start_time

instance : DecidableRel gapRel := fun a b =>
  inferInstanceAs (Decidable (b.start_time ≤ a.end_time))
instance : DecidableRel contigRel := fun a b =>
  inferInstanceAs (Decidable (a.end_time = b.start_time))
instance : DecidableRel sepRel := fun a b =>
  inferInstanceAs (Decidable (a.end_time ≤ b.start_time))
instance : DecidableRel sortedRel := fun a b =>
  inferInstanceAs (Decidable (a.start_time ≤ b.start_time))

/-! ## Structure of `fillLoop` runs -/

theorem lastEnd_of_getLast (l : List Timeslot) (x : Timeslot)
    (h : l.getLast? = some x) : lastEnd l = x.end_time := by
  unfold lastEnd; rw [h]

theorem headStart_of_head (l : List Timeslot) (x : Timeslot)
    (h : l.head? = some x) : headStart l = x.start_time := by
  unfold headStart; rw [h]

/-- The `fillLoop` only ever appends, so the head of a successful run is the
head of accumulator-then-input. -/
theorem fillLoop_head (env : Env) :
    ∀ (rest acc res : List Timeslot),
      fillLoop env acc rest = .ok res → res.head? = (acc ++ rest).head? := by
  intro rest
  induction rest with
  | nil =>
    intro acc res h
    simp only [fillLoop] at h
    rw [← Except.ok.inj h]
    simp
  | cons ts rest2 ih =>
    intro acc res h
    cases acc with
    | nil =>
      simp only [fillLoop] at h
      rw [ih [ts] res h]
      simp
    | cons a as =>
      simp only [fillLoop] at h
      by_cases hgap : lastEnd (a :: as) < ts.start_time
      · rw [if_pos hgap] at h
        cases hnew : timeslotVal env (lastEnd (a :: as)) ts.start_time with
        | error er => rw [hnew] at h; exact absurd h (by simp)
        | ok f =>
          rw [hnew] at h
          rw [ih ((a :: as) ++ [f, ts]) res h]
          simp
      · rw [if_neg hgap] at h
        rw [ih ((a :: as) ++ [ts]) res h]
        simp

/-- The last element of a successful `fillLoop` run is the last element
of accumulator-then-input. -/
theorem fillLoop_last (env : Env) :
    ∀ (rest acc res : List Timeslot),
      fillLoop env acc rest = .ok res →
        res.getLast? = (acc ++ rest).getLast? := by
  intro rest
  induction rest with
  | nil =>
    intro acc res h
    simp only [fillLoop] at h
    rw [← Except.ok.inj h]
    simp
  | cons ts rest2 ih =>
    intro acc res h
    cases acc with
    | nil =>
      simp only [fillLoop] at h
      rw [ih [ts] res h]
      simp
    | cons a as =>
      simp only [fillLoop] at h
      by_cases hgap : lastEnd (a :: as) < ts.start_time
      · rw [if_pos hgap] at h
        cases hnew : timeslotVal env (lastEnd (a :: as)) ts.start_time with
        | error er => rw [hnew] at h; exact absurd h (by simp)
        | ok f =>
          rw [hnew] at h
          rw [ih ((a :: as) ++ [f, ts]) res h]
          have h1 : (((a :: as) ++ [f, ts]) ++ rest2).getLast?
              = (f :: ts :: rest2).getLast? := by
            rw [List.append_assoc]
            exact List.getLast?_append_of_ne_nil _ (by simp)
          have h2 : ((a :: as) ++ ts :: rest2).getLast?
              = (ts :: rest2).getLast? :=
            List.getLast?_append_of_ne_nil _ (by simp)
          rw [h1, h2]
          cases rest2 <;> simp [List.getLast?]
      · rw [if_neg hgap] at h
        rw [ih ((a :: as) ++ [ts]) res h]
        have h1 : (((a :: as) ++ [ts]) ++ rest2).getLast?
            = (ts :: rest2).getLast? := by
          rw [List.append_assoc]
          exact List.getLast?_append_of_ne_nil _ (by simp)
        have h2 : ((a :: as) ++ ts :: rest2).getLast?
            = (ts :: rest2).getLast? :=
          List.getLast?_append_of_ne_nil _ (by simp)
        rw [h1, h2]

/-- A successful `fillLoop` run started from a gap-free accumulator is
gap-free: every inserted filler bridges its gap exactly, and slots that
are not bridged already satisfy `ts.start_time <= lastEnd acc`. -/
theorem fillLoop_gapFree (env : Env) :
    ∀ (rest acc res : List Timeslot), List.Chain' gapRel acc →
      fillLoop env acc rest = .ok res → List.Chain' gapRel res := by
  intro rest
  induction rest with
  | nil =>
    intro acc res hacc h
    simp only [fillLoop] at h
    rw [← Except.ok.inj h]
    exact hacc
  | cons ts rest2 ih =>
    intro acc res hacc h
    cases acc with
    | nil =>
      simp only [fillLoop] at h
      exact ih [ts] res (List.chain'_singleton ts) h
    | cons a as =>
      simp only [fillLoop] at h
      by_cases hgap : lastEnd (a :: as) < ts.start_time
      · rw [if_pos hgap] at h
        cases hnew : timeslotVal env (lastEnd (a :: as)) ts.start_time with
        | error er => rw [hnew] at h; exact absurd h (by simp)
        | ok f =>
          rw [hnew] at h
          refine ih ((a :: as) ++ [f, ts]) res ?_ h
          obtain ⟨hfs, hfe⟩ := timeslotVal_shape env _ _ f hnew
          rw [List.chain'_append]
          refine ⟨hacc, ?_, ?_⟩
          · rw [List.chain'_pair]
            unfold gapRel
            omega
          · intro x hx y hy
            have hy2 : f = y := Option.some.inj (Option.mem_def.mp hy)
            subst hy2
            unfold gapRel
            rw [hfs, lastEnd_of_getLast _ x (Option.mem_def.mp hx)]
      · rw [if_neg hgap] at h
        refine ih ((a :: as) ++ [ts]) res ?_ h
        rw [List.chain'_append]
        refine ⟨hacc, List.chain'_singleton ts, ?_⟩
        intro x hx y hy
        have hy2 : ts = y := Option.some.inj (Option.mem_def.mp hy)
        subst hy2
        unfold gapRel
        have := lastEnd_of_getLast _ x (Option.mem_def.mp hx)
        omega

/-- A successful `fillLoop` run from an exactly-contiguous accumulator
that is separated from (and non-overlapping with) the remaining input is
exactly contiguous. -/
theorem fillLoop_contig (env : Env) :
    ∀ (rest acc res : List Timeslot), List.Chain' contigRel acc →
      List.Chain' sepRel rest →
      (∀ x ∈ acc.getLast?, ∀ y ∈ rest.head?, sepRel x y) →
      fillLoop env acc rest = .ok res → List.Chain' contigRel res := by
  intro rest
  induction rest with
  | nil =>
    intro acc res hacc _ _ h
    simp only [fillLoop] at h
    rw [← Except.ok.inj h]
    exact hacc
  | cons ts rest2 ih =>
    intro acc res hacc hrest hjun h
    have hrest2 : List.Chain' sepRel rest2 := (List.chain'_cons'.mp hrest).2
    have hts : ∀ y ∈ rest2.head?, sepRel ts y := (List.chain'_cons'.mp hrest).1
    cases acc with
    | nil =>
      simp only [fillLoop] at h
      refine ih [ts] res (List.chain'_singleton ts) hrest2 ?_ h
      intro x hx y hy
      have hx2 : ts = x := Option.some.inj (Option.mem_def.mp hx)
      subst hx2
      exact hts y hy
    | cons a as =>
      simp only [fillLoop] at h
      have hjts : sepRel ((a :: as).getLast (by simp)) ts := by
        refine hjun _ ?_ ts ?_
        · exact Option.mem_def.mpr (List.getLast?_eq_getLast _ _)
        · rfl
      have hlast : lastEnd (a :: as)
          = ((a :: as).getLast (by simp)).end_time :=
        lastEnd_of_getLast _ _ (List.getLast?_eq_getLast _ _)
      by_cases hgap : lastEnd (a :: as) < ts.start_time
      · rw [if_pos hgap] at h
        cases hnew : timeslotVal env (lastEnd (a :: as)) ts.start_time with
        | error er => rw [hnew] at h; exact absurd h (by simp)
        | ok f =>
          rw [hnew] at h
          obtain ⟨hfs, hfe⟩ := timeslotVal_shape env _ _ f hnew
          refine ih ((a :: as) ++ [f, ts]) res ?_ hrest2 ?_ h
          · rw [List.chain'_append]
            refine ⟨hacc, ?_, ?_⟩
            · rw [List.chain'_pair]
              unfold contigRel
              omega
            · intro x hx y hy
              have hy2 : f = y := Option.some.inj (Option.mem_def.mp hy)
              subst hy2
              unfold contigRel
              rw [hfs, lastEnd_of_getLast _ x (Option.mem_def.mp hx)]
          · intro x hx y hy
            have hx2 : ((a :: as) ++ [f, ts]).getLast? = some ts :=
              List.getLast?_append_of_ne_nil _ (by simp)
            have hx3 : ts = x := by
              have := Option.mem_def.mp hx
              rw [hx2] at this
              exact Option.some.inj this
            subst hx3
            exact hts y hy
      · rw [if_neg hgap] at h
        refine ih ((a :: as) ++ [ts]) res ?_ hrest2 ?_ h
        · rw [List.chain'_append]
          refine ⟨hacc, List.chain'_singleton ts, ?_⟩
          intro x hx y hy
          have hy2 : ts = y := Option.some.inj (Option.mem_def.mp hy)
          subst hy2
          have hxl : (a :: as).getLast? = some x := Option.mem_def.mp hx
          have hx2 : x = (a :: as).getLast (by simp) := by
            have := List.getLast?_eq_getLast (a :: as) (by simp)
            rw [hxl] at this
            exact Option.some.inj this
          subst hx2
          unfold contigRel
          unfold sepRel at hjts
          rw [← hlast] at hjts ⊢
          omega
        · intro x hx y hy
          have hx2 : ((a :: as) ++ [ts]).getLast? = some ts :=
            List.getLast?_append_of_ne_nil _ (by simp)
          have hx3 : ts = x := by
            have := Option.mem_def.mp hx
            rw [hx2] at this
            exact Option.some.inj this
          subst hx3
          exact hts y hy

/-- On an input that is already gap-free against the accumulator,
`fillLoop` inserts nothing: it returns accumulator-then-input. -/
theorem fillLoop_noop (env : Env) :
    ∀ (rest acc : List Timeslot), List.Chain' gapRel rest →
      (∀ x ∈ acc.getLast?, ∀ y ∈ rest.head?, gapRel x y) →
      fillLoop env acc rest = .ok (acc ++ rest) := by
  intro rest
  induction rest with
  | nil =>
    intro acc _ _
    simp [fillLoop]
  | cons ts rest2 ih =>
    intro acc hrest hjun
    have hrest2 : List.Chain' gapRel rest2 := (List.chain'_cons'.mp hrest).2
    have hts : ∀ y ∈ rest2.head?, gapRel ts y := (List.chain'_cons'.mp hrest).1
    cases acc with
    | nil =>
      simp only [fillLoop]
      have := ih [ts] hrest2 ?_
      · rw [this]
        rfl
      · intro x hx y hy
        have hx2 : ts = x := Option.some.inj (Option.mem_def.mp hx)
        subst hx2
        exact hts y hy
    | cons a as =>
      simp only [fillLoop]
      have hjts : gapRel ((a :: as).getLast (by simp)) ts := by
        refine hjun _ ?_ ts ?_
        · exact Option.mem_def.mpr (List.getLast?_eq_getLast _ _)
        · rfl
      have hlast : lastEnd (a :: as)
          = ((a :: as).getLast (by simp)).end_time :=
        lastEnd_of_getLast _ _ (List.getLast?_eq_getLast _ _)
      have hgap : ¬ lastEnd (a :: as) < ts.start_time := by
        unfold gapRel at hjts
        omega
      rw [if_neg hgap]
      have := ih ((a :: as) ++ [ts]) hrest2 ?_
      · rw [this, List.append_assoc]
        rfl
      · intro x hx y hy
        have hx2 : ((a :: as) ++ [ts]).getLast? = some ts :=
          List.getLast?_append_of_ne_nil _ (by simp)
        have hx3 : ts = x := by
          have := Option.mem_def.mp hx
          rw [hx2] at this
          exact Option.some.inj this
        subst hx3
        exact hts y hy

/-! ## Properties of successful `fill` runs -/

theorem ne_nil_of_getLast (l : List Timeslot) (x : Timeslot)
    (h : l.getLast? = some x) : l ≠ [] := by
  intro heq
  subst heq
  exact Option.noConfusion h

/-- Everything a successful `fill` run guarantees: the result is
non-empty, starts at or before `s`, ends at or after `e`, is gap-free,
and — when the input slots form a non-overlapping chain — is exactly
contiguous. -/
theorem fill_ok_props (env : Env) (slots : List Timeslot) (s e : Int)
    (res : List Timeslot) (h : fill env slots s e = .ok res) :
    res ≠ [] ∧ headStart res ≤ s ∧ e ≤ lastEnd res ∧
      List.Chain' gapRel res ∧
      (List.Chain' sepRel slots → List.Chain' contigRel res) := by
  unfold fill at h
  by_cases hse : s > e
  · rw [if_pos hse] at h
    exact absurd h (by simp)
  rw [if_neg hse] at h
  cases slots with
  | nil =>
    simp only [fillBody] at h
    cases hv : timeslotVal env (end_before env s) (start_after env e) with
    | error er => rw [hv] at h; exact absurd h (by simp [Except.map])
    | ok f =>
      rw [hv] at h
      simp only [Except.map] at h
      have hres : [f] = res := Except.ok.inj h
      subst hres
      obtain ⟨hfs, hfe⟩ := timeslotVal_shape env _ _ f hv
      refine ⟨by simp, ?_, ?_, List.chain'_singleton f,
        fun _ => List.chain'_singleton f⟩
      · rw [headStart_of_head ([f]) f rfl, hfs]
        exact end_before_le env s
      · rw [lastEnd_of_getLast ([f]) f rfl, hfe]
        exact start_after_ge env e
  | cons ts0 stail =>
    simp only [fillBody] at h
    -- Analyse the optional leading filler, then the loop, then the final
    -- filler.
    have main : ∀ pre mid : List Timeslot,
        (pre = [] ∧ ts0.start_time ≤ s) ∨
          (∃ f0, pre = [f0] ∧ f0.start_time = end_before env s ∧
            f0.end_time = ts0.start_time) →
        fillLoop env pre (ts0 :: stail) = .ok mid →
        (if lastEnd mid < e then
          (timeslotVal env (lastEnd mid)
            (start_after env e)).map (fun f => mid ++ [f])
         else .ok mid) = .ok res →
        res ≠ [] ∧ headStart res ≤ s ∧ e ≤ lastEnd res ∧
          List.Chain' gapRel res ∧
          (List.Chain' sepRel (ts0 :: stail) → List.Chain' contigRel res) := by
      intro pre mid hpre hloop hm
      have hprechain : List.Chain' gapRel pre := by
        rcases hpre with ⟨hp, _⟩ | ⟨f0, hp, _, _⟩ <;> subst hp
        · exact List.chain'_nil
        · exact List.chain'_singleton f0
      have hmidgap : List.Chain' gapRel mid :=
        fillLoop_gapFree env _ _ _ hprechain hloop
      have hmidlast : mid.getLast? = (ts0 :: stail).getLast? := by
        have h2 := fillLoop_last env _ _ _ hloop
        rcases hpre with ⟨hp, _⟩ | ⟨f0, hp, _, _⟩ <;> subst hp
        · simpa using h2
        · rw [h2]
          exact List.getLast?_append_of_ne_nil _ (by simp)
      have hmidne : mid ≠ [] := by
        have h1 : (ts0 :: stail).getLast? =
            some ((ts0 :: stail).getLast (by simp)) :=
          List.getLast?_eq_getLast _ _
        exact ne_nil_of_getLast mid _ (hmidlast.trans h1)
      have hmidhead : headStart mid ≤ s := by
        have hh := fillLoop_head env _ _ _ hloop
        rcases hpre with ⟨hp, hps⟩ | ⟨f0, hp, hf0s, _⟩ <;> subst hp
        · rw [headStart_of_head mid ts0 (by simpa using hh)]
          exact hps
        · rw [headStart_of_head mid f0 (by simpa using hh), hf0s]
          exact end_before_le env s
      have hmidcontig : List.Chain' sepRel (ts0 :: stail) →
          List.Chain' contigRel mid := by
        intro hsep
        refine fillLoop_contig env _ _ _ ?_ hsep ?_ hloop
        · rcases hpre with ⟨hp, _⟩ | ⟨f0, hp, _, _⟩ <;> subst hp
          · exact List.chain'_nil
          · exact List.chain'_singleton f0
        · rcases hpre with ⟨hp, _⟩ | ⟨f0, hp, _, hf0e⟩ <;> subst hp
          · intro x hx
            exact absurd (Option.mem_def.mp hx) (by simp)
          · intro x hx y hy
            have hx2 : f0 = x := Option.some.inj (Option.mem_def.mp hx)
            have hy2 : ts0 = y := Option.some.inj (Option.mem_def.mp hy)
            subst hx2; subst hy2
            unfold sepRel
            omega
      by_cases hfin : lastEnd mid < e
      · rw [if_pos hfin] at hm
        cases hv2 : timeslotVal env (lastEnd mid) (start_after env e) with
        | error er => rw [hv2] at hm; exact absurd hm (by simp [Except.map])
        | ok f2 =>
          rw [hv2] at hm
          simp only [Except.map] at hm
          have hres : mid ++ [f2] = res := Except.ok.inj hm
          subst hres
          obtain ⟨hf2s, hf2e⟩ := timeslotVal_shape env _ _ f2 hv2
          have hjun : ∀ x ∈ mid.getLast?, x.end_time = f2.start_time := by
            intro x hx
            rw [hf2s, lastEnd_of_getLast mid x (Option.mem_def.mp hx)]
          refine ⟨by simp, ?_, ?_, ?_, ?_⟩
          · have hmh : (mid ++ [f2]).head? = mid.head? :=
              List.head?_append_of_ne_nil _ hmidne
            have hmh2 : mid.head? = some (mid.head hmidne) :=
              List.head?_eq_head hmidne
            rw [headStart_of_head _ (mid.head hmidne) (hmh.trans hmh2)]
            rw [headStart_of_head mid (mid.head hmidne) hmh2] at hmidhead
            exact hmidhead
          · have hml : (mid ++ [f2]).getLast? = some f2 := by
              rw [List.getLast?_append_of_ne_nil _ (by simp)]
              rfl
            rw [lastEnd_of_getLast _ f2 hml, hf2e]
            exact start_after_ge env e
          · rw [List.chain'_append]
            refine ⟨hmidgap, List.chain'_singleton f2, ?_⟩
            intro x hx y hy
            have hy2 : f2 = y := Option.some.inj (Option.mem_def.mp hy)
            subst hy2
            unfold gapRel
            rw [hjun x hx]
          · intro hsep
            rw [List.chain'_append]
            refine ⟨hmidcontig hsep, List.chain'_singleton f2, ?_⟩
            intro x hx y hy
            have hy2 : f2 = y := Option.some.inj (Option.mem_def.mp hy)
            subst hy2
            exact hjun x hx
      · rw [if_neg hfin] at hm
        have hres : mid = res := Except.ok.inj hm
        subst hres
        exact ⟨hmidne, hmidhead, by omega, hmidgap, hmidcontig⟩
    by_cases hpre : s < ts0.start_time
    · rw [if_pos hpre] at h
      cases hv0 : timeslotVal env (end_before env s) ts0.start_time with
      | error er =>
        rw [hv0] at h
        exact absurd h (by simp [Except.map])
      | ok f0 =>
        rw [hv0] at h
        simp only [Except.map] at h
        obtain ⟨hf0s, hf0e⟩ := timeslotVal_shape env _ _ f0 hv0
        cases hloop : fillLoop env [f0] (ts0 :: stail) with
        | error er => rw [hloop] at h; exact absurd h (by simp)
        | ok mid =>
          rw [hloop] at h
          simp only [] at h
          exact main [f0] mid (Or.inr ⟨f0, rfl, hf0s, hf0e⟩) hloop h
    · rw [if_neg hpre] at h
      simp only [] at h
      cases hloop : fillLoop env [] (ts0 :: stail) with
      | error er => rw [hloop] at h; exact absurd h (by simp)
      | ok mid =>
        rw [hloop] at h
        simp only [] at h
        exact main [] mid (Or.inl ⟨rfl, by omega⟩) hloop h

/-- Filling a list that already covers `[s, e]` gap-free is a no-op. -/
theorem fill_of_covered (env : Env) (l : List Timeslot) (s e : Int)
    (hne : l ≠ []) (hh : headStart l ≤ s) (hle : e ≤ lastEnd l)
    (hg : List.Chain' gapRel l) (hse : ¬ s > e) : fill env l s e = .ok l := by
  unfold fill
  rw [if_neg hse]
  cases l with
  | nil => exact absurd rfl hne
  | cons r0 rtail =>
    simp only [fillBody]
    have hh0 : headStart (r0 :: rtail) = r0.start_time :=
      headStart_of_head (r0 :: rtail) r0 rfl
    have hpre : ¬ s < r0.start_time := by omega
    rw [if_neg hpre]
    simp only []
    have hloop : fillLoop env [] (r0 :: rtail) = .ok (r0 :: rtail) := by
      have := fillLoop_noop env (r0 :: rtail) [] hg ?_
      · simpa using this
      · intro x hx
        exact absurd (Option.mem_def.mp hx) (by simp)
    rw [hloop]
    simp only []
    rw [if_neg (by omega)]

/-- Claim C9 (confirmed).  `fill` is idempotent: re-filling the result of
a successful fill (same range, same database) returns it unchanged, and
on a failed fill both sides fail identically; hence
`fill (fill slots s e) s e = fill slots s e` as computations. -/
theorem fill_idempotent (env : Env) (slots : List Timeslot) (s e : Int) :
    (fill env slots s e).bind (fun r => fill env r s e)
      = fill env slots s e := by
  by_cases hse : s > e
  · have : fill env slots s e = .error .valueError := by
      unfold fill
      rw [if_pos hse]
    rw [this]
    rfl
  cases h : fill env slots s e with
  | error er => rfl
  | ok res =>
    obtain ⟨hne, hh, hle, hg, _⟩ := fill_ok_props env slots s e res h
    show fill env res s e = Except.ok res
    exact fill_of_covered env res s e hne hh hle hg hse

/-- A kernel-computable decision procedure for `List.Chain'` (the Mathlib
instance is stated via `Eq.rec` and does not reduce under `decide`). -/
def chainDec (R : Timeslot → Timeslot → Prop) (hR : DecidableRel R) :
    (l : List Timeslot) → Decidable (List.Chain' R l)
  | [] => isTrue List.chain'_nil
  | [_] => isTrue (List.chain'_singleton _)
  | a :: b :: l =>
    haveI : Decidable (List.Chain' R (b :: l)) := chainDec R hR (b :: l)
    haveI : Decidable (R a b) := hR a b
    decidable_of_iff (R a b ∧ List.Chain' R (b :: l)) List.chain'_cons.symm

instance {R : Timeslot → Timeslot → Prop} [hR : DecidableRel R]
    (l : List Timeslot) : Decidable (List.Chain' R l) :=
  chainDec R hR l

/-! ## Concrete database states and inputs used by witnesses and
counterexamples -/

/-- A healthy database: one wide term and a filler show, no stored
timeslots. -/
def envA : Env := { terms := [⟨-1000000, 1000000⟩], fillerShow := some 99 }

/-- A fixed-offset (no DST) zone. -/
def tzFixed : TZ := ⟨0, 0, 0⟩

/-- A real slot `[5, 8)`. -/
def slotA : Timeslot := { start_time := 5, duration := 3 }

/-- The `fill envA [slotA] 0 10`: leading filler `[0, 5)`, the slot, trailing
filler `[8, 10)`. -/
def filledA : List Timeslot :=
  [{ start_time := 0, duration := 5, showId := 99, is_public := true,
     is_collapsible := true },
   { start_time := 5, duration := 3 },
   { start_time := 8, duration := 2, showId := 99, is_public := true,
     is_collapsible := true }]

/-- Two overlapping slots `[0, 10)` and `[5, 8)`, sorted by start time. -/
def overlapIn : List Timeslot :=
  [{ start_time := 0, duration := 10 }, { start_time := 5, duration := 3 }]

/-- The `fill envA overlapIn 0 10`. -/
def overlapOut : List Timeslot :=
  [{ start_time := 0, duration := 10 }, { start_time := 5, duration := 3 },
   { start_time := 8, duration := 2, showId := 99, is_public := true,
     is_collapsible := true }]

/-! ## Claim C1 -/

/-- Claim C1 (corrected).  For every timeslot list and `start <= end`, a
successful `fill` returns a non-empty sequence with
`result[0].start_time <= start`, `result[-1].end_time >= end` and no gap
between adjacent slots (`result[i+1].start_time <= result[i].end_time`);
exact contiguity (`result[i].end_time == result[i+1].start_time`) holds
when the input slots are pairwise non-overlapping in sequence, but *not*
for overlapping inputs (see the counterexample). -/
theorem fill_gap_free_and_covers (env : Env) (slots : List Timeslot)
    (s e : Int) (res : List Timeslot) (h : fill env slots s e = .ok res) :
    res ≠ [] ∧ headStart res ≤ s ∧ e ≤ lastEnd res ∧
      List.Chain' gapRel res ∧
      (List.Chain' sepRel slots → List.Chain' contigRel res) :=
  fill_ok_props env slots s e res h

/-- Witness for C1 at a concrete input. -/
theorem fill_gap_free_and_covers_witness :
    fill envA [slotA] 0 10 = .ok filledA ∧
      (filledA ≠ [] ∧ headStart filledA ≤ 0 ∧ (10 : Int) ≤ lastEnd filledA ∧
        List.Chain' gapRel filledA ∧
        (List.Chain' sepRel [slotA] → List.Chain' contigRel filledA)) :=
  ⟨rfl, fill_gap_free_and_covers envA [slotA] 0 10 filledA rfl⟩

/-- Counterexample to C1 as stated: a sorted input whose slots overlap is
filled without raising, but the result is *not* exactly contiguous
(`result[0].end_time = 10` while `result[1].start_time = 5`). -/
theorem fill_contiguity_counterexample :
    List.Chain' sortedRel overlapIn ∧ (0 : Int) ≤ 10 ∧
      fill envA overlapIn 0 10 = .ok overlapOut ∧
      ¬ List.Chain' contigRel overlapOut :=
  ⟨by decide, by decide, rfl, by decide⟩

/-! ## Claim C2 -/

/-- Claim C2 (confirmed).  With any non-empty input list and
`start <= end`, `fill` raises `TypeError` instead of returning a filled
list, because it calls the `end_time` property as if it were a method
(`filled_timeslots[-1].end_time()`, and `end_before` likewise calls
`slots.latest().end_time()`); the property's value is a datetime, which
is not callable.  The two side conditions keep the filler-season
construction on the gap-before-the-first-slot path from pre-empting the
`TypeError` with its own documented `ValueError`/`DoesNotExist`. -/
theorem fillPy_always_typeError (env : Env) (slots : List Timeslot)
    (s e : Int) (hne : slots ≠ []) (hse : s ≤ e)
    (hterm : (fillerTerm env s).isSome = true)
    (hshow : env.fillerShow.isSome = true) :
    fillPy env slots s e = .error .typeError := by
  unfold fillPy
  rw [if_neg (by omega)]
  cases slots with
  | nil => exact absurd rfl hne
  | cons ts0 stail =>
    simp only [fillPyBody]
    by_cases hpre : s < ts0.start_time
    · rw [if_pos hpre]
      cases hb : endBeforePy env s with
      | error er =>
        have her : er = PyErr.typeError := by
          unfold endBeforePy at hb
          cases hl : latestSlot (env.storedSlots.filter
              (fun ts => decide (ts.start_time ≤ s - ts.duration))) with
          | some x => rw [hl] at hb; exact (Except.error.inj hb).symm
          | none => rw [hl] at hb; exact absurd hb (by simp)
        subst her
        simp only []
      | ok b =>
        have hbb : b = s := by
          unfold endBeforePy at hb
          cases hl : latestSlot (env.storedSlots.filter
              (fun ts => decide (ts.start_time ≤ s - ts.duration))) with
          | some x => rw [hl] at hb; exact absurd hb (by simp)
          | none => rw [hl] at hb; exact (Except.ok.inj hb).symm
        rw [hbb]
        cases hft : fillerTerm env s with
        | none => rw [hft] at hterm; exact absurd hterm (by simp)
        | some t =>
          cases hfs : env.fillerShow with
          | none => rw [hfs] at hshow; exact absurd hshow (by simp)
          | some sh =>
            have hv : timeslotVal env s ts0.start_time =
                .ok { start_time := s, duration := ts0.start_time - s,
                      showId := sh, is_public := true,
                      is_collapsible := true } := by
              unfold timeslotVal
              rw [hft, hfs]
            simp only []
            rw [hv]
            simp only [Except.map, fillPyLoop]
    · rw [if_neg hpre]
      cases stail with
      | nil => simp only [fillPyLoop]
      | cons ts1 srest => simp only [fillPyLoop]

/-- Witness for C2 at a concrete input. -/
theorem fillPy_always_typeError_witness :
    ([slotA] : List Timeslot) ≠ [] ∧ (0 : Int) ≤ 10 ∧
      (fillerTerm envA 0).isSome = true ∧ envA.fillerShow.isSome = true ∧
      fillPy envA [slotA] 0 10 = .error .typeError :=
  ⟨by decide, by decide, by decide, by decide,
    fillPy_always_typeError envA [slotA] 0 10 (by decide) (by decide)
      (by decide) (by decide)⟩

/-! ## Claim C10 -/

/-- Claim C10 (confirmed).  Constructing any `Schedule` (and hence any
`DaySchedule` or `WeekSchedule`) fails for every start and range:
`Schedule.__init__` evaluates `r.dst_add(start, range)`, but module
`schedule.utils.range` defines only `dst_add_days` and no attribute named
`dst_add`, so attribute lookup raises `AttributeError` before any
schedule object is produced. -/
theorem schedule_init_always_fails (start range : Int) :
    scheduleInit start range = .error .attributeError ∧
      dayScheduleInit start = .error .attributeError ∧
      weekScheduleInit start = .error .attributeError := by
  refine ⟨?_, ?_, ?_⟩ <;> rfl

/-! ## Claim C3 -/

/-- A database holding a single term `[0, 100)`; the query point 200 lies
after it, so no term contains it but a prior term exists. -/
def envGap : Env := { terms := [⟨0, 100⟩] }

/-- Claim C3 (corrected).  When no term contains the schedule start,
`range_builder` raises nothing and returns a sentinel — but with the
sentinels the opposite way round from the claim: `'not_in_term'` when a
prior term exists (the between-terms case) and `'empty'` when no prior
term exists (the no-term-data case), exactly as its own docstring
says. -/
theorem range_builder_no_term_sentinels (env : Env) (tz : TZ)
    (s e : Int) (h : Term.of env s = none) :
    (Term.before env s ≠ none →
      range_builder env tz s e = .ok .notInTerm) ∧
    (Term.before env s = none →
      range_builder env tz s e = .ok .empty) := by
  constructor
  · intro hb
    unfold range_builder
    rw [h, if_neg hb]
  · intro hb
    unfold range_builder
    rw [h, if_pos hb]

/-- Witness for C3 at a concrete input: between terms,
`range_builder` returns `'not_in_term'`. -/
theorem range_builder_no_term_sentinels_witness :
    Term.of envGap 200 = none ∧ Term.before envGap 200 ≠ none ∧
      range_builder envGap tzFixed 200 300 = .ok .notInTerm :=
  ⟨by decide, by decide,
    (range_builder_no_term_sentinels envGap tzFixed 200 300 (by decide)).1
      (by decide)⟩

/-- Counterexample to C3 as stated: a prior term exists (term `[0, 100)`
ends at or before start 200), and the builder returns `'not_in_term'`,
not the `'empty'` the claim promises. -/
theorem range_builder_sentinel_counterexample :
    Term.of envGap 200 = none ∧ Term.before envGap 200 = some ⟨0, 100⟩ ∧
      range_builder envGap tzFixed 200 300 = .ok .notInTerm ∧
      BuildResult.notInTerm ≠ BuildResult.empty :=
  ⟨by decide, by decide, by decide, by decide⟩

/-! ## Claim C7 -/

/-- Claim C7 (confirmed).  For an aware datetime `t` before a
spring-forward transition and a day count `n` landing the naive-local
target at or past the end of the transition gap, `dst_add_days` succeeds
and the result's naive-local (wall-clock) time is exactly `t`'s
naive-local time plus `n` days — not shifted by the DST delta. -/
theorem dst_add_days_preserves_wall_clock (tz : TZ) (t n : Int)
    (hspring : tz.o1 < tz.o2) (hbefore : t < tz.T)
    (hafter : tz.T + tz.o2 ≤ nld tz t + n * daySecs) :
    ∃ t2, dst_add_days tz t n = some t2 ∧
      nld tz t2 = nld tz t + n * daySecs := by
  refine ⟨nld tz t + n * daySecs - tz.o2, ?_, ?_⟩
  · unfold dst_add_days makeAware
    rw [if_neg (by omega), if_pos (by omega)]
  · have ht : TZ.offset tz t = tz.o1 := by
      unfold TZ.offset
      rw [if_pos hbefore]
    unfold nld at hafter ⊢
    rw [ht] at hafter ⊢
    have h2 : TZ.offset tz (t + tz.o1 + n * daySecs - tz.o2) = tz.o2 := by
      unfold TZ.offset
      rw [if_neg (by omega)]
    rw [h2]
    omega

/-- Witness for C7: a one-hour spring-forward at absolute time 1000,
adding one day from noon-equivalent absolute 0. -/
theorem dst_add_days_preserves_wall_clock_witness :
    (0 : Int) < 3600 ∧ (0 : Int) < 1000 ∧
      (1000 : Int) + 3600 ≤ nld ⟨1000, 0, 3600⟩ 0 + 1 * daySecs ∧
      (∃ t2, dst_add_days ⟨1000, 0, 3600⟩ 0 1 = some t2 ∧
        nld ⟨1000, 0, 3600⟩ t2 = nld ⟨1000, 0, 3600⟩ 0 + 1 * daySecs) :=
  ⟨by decide, by decide, by decide,
    dst_add_days_preserves_wall_clock ⟨1000, 0, 3600⟩ 0 1 (by decide)
      (by decide) (by decide)⟩

/-! ## Claim C4 -/

/-- A slot starting at local 00:30 (under a fixed-offset zone at absolute
second 1800). -/
def wrapSlot : Timeslot := { start_time := 1800, duration := 60 }

/-- Claim C4 (corrected).  A midnight-wrapping range rule matches a slot
starting at 00:30 only when it is *stored* with `end_time` past 24h
(23h-25h); the `delta + 24h` projection then lands 00:30 at 24h30m inside
`[23h, 25h)`. -/
theorem hook_range_wraparound_amended (tz : TZ) (ts : Timeslot) (b : Nat)
    (hb : b ≠ 0) (hd : delta tz ts.start_time = 1800) :
    hookRange [⟨b, 82800, 90000⟩] tz ts = b := by
  unfold hookRange
  rw [hd]
  simp only [List.insertionSort, List.orderedInsert]
  unfold hookRangeGo
  rw [(by norm_num [rangeRuleMatches, daySecs] :
    rangeRuleMatches ⟨b, 82800, 90000⟩ 1800 = true)]
  rw [if_pos (by simp [hb])]

/-- Witness for C4 (amended) at a concrete input. -/
theorem hook_range_wraparound_amended_witness :
    (4 : Nat) ≠ 0 ∧ delta tzFixed wrapSlot.start_time = 1800 ∧
      hookRange [⟨4, 82800, 90000⟩] tzFixed wrapSlot = 4 :=
  ⟨by decide, by decide,
    hook_range_wraparound_amended tzFixed wrapSlot 4 (by decide) (by decide)⟩

/-- Counterexample to C4 as stated: a rule stored literally as
`start_time = 23h, end_time = 1h` matches nothing — `hook_range` on the
00:30 slot returns 0 (no match), not the rule's block 4, because no value
satisfies `23h <= x < 1h`. -/
theorem hook_range_wraparound_counterexample :
    delta tzFixed wrapSlot.start_time = 1800 ∧
      hookRange [⟨4, 82800, 3600⟩] tzFixed wrapSlot = 0 ∧ (0 : Nat) ≠ 4 :=
  ⟨by decide, by decide, by decide⟩

/-! ## Claim C5 -/

/-- Claim C5 (confirmed).  `HOOKS` consults `hook_show` before
`hook_range` and the first truthy match wins, so a slot whose show is
pinned to block `bX` by a `BlockShowRule` is annotated with `bX`'s block
even when a `BlockRangeRule` for a different block `bY` also matches. -/
theorem annotate_show_rule_precedence (env : Env) (tz : TZ) (ts : Timeslot)
    (bX bY : Nat) (blkX : Block)
    (hX : hookShow env.showRules ts = bX) (hbX : bX ≠ 0)
    (hlook : lookupBlock env.blocks bX = some blkX)
    (hY : hookRange env.rangeRules tz ts = bY) (hbY : bY ≠ 0)
    (hne : bY ≠ bX) :
    annotate env tz [ts] = .ok [(ts, some blkX)] := by
  have h1 : annotateSlot env.blocks (preparedHooks env tz) ts
      = .ok (ts, some blkX) := by
    simp only [preparedHooks, annotateSlot]
    rw [hX, if_pos hbX, hlook]
  unfold annotate
  rw [h1]
  rfl

/-- The database used by the block-precedence witnesses: block 3
(priority 5), block 5 (priority 1), show 42 pinned to block 3, an
all-day range rule for block 5. -/
def envB : Env :=
  { blocks := [⟨3, 5⟩, ⟨5, 1⟩], showRules := [⟨3, 42⟩],
    rangeRules := [⟨5, 0, 86400⟩] }

/-- A slot of show 42. -/
def showSlot : Timeslot := { start_time := 1800, duration := 60, showId := 42 }

/-- Witness for C5 at a concrete input. -/
theorem annotate_show_rule_precedence_witness :
    hookShow envB.showRules showSlot = 3 ∧ (3 : Nat) ≠ 0 ∧
      lookupBlock envB.blocks 3 = some ⟨3, 5⟩ ∧
      hookRange envB.rangeRules tzFixed showSlot = 5 ∧ (5 : Nat) ≠ 0 ∧
      (5 : Nat) ≠ 3 ∧
      annotate envB tzFixed [showSlot] = .ok [(showSlot, some ⟨3, 5⟩)] :=
  ⟨by decide, by decide, by decide, by decide, by decide, by decide,
    annotate_show_rule_precedence envB tzFixed showSlot 3 5 ⟨3, 5⟩
      (by decide) (by decide) (by decide) (by decide) (by decide)
      (by decide)⟩

/-! ## Claim C6 -/

instance : IsTotal RangeRule (fun a b => a.start_time ≤ b.start_time) :=
  ⟨fun a b => Int.le_total a.start_time b.start_time⟩

instance : IsTrans RangeRule (fun a b => a.start_time ≤ b.start_time) :=
  ⟨fun _ _ _ h1 h2 => le_trans h1 h2⟩

/-- Splitting a `hook_range` scan at its first effective match: scanning
returns block `b ≠ 0` exactly when the rule list splits into a failing
prefix, the winning rule, and an unexamined suffix. -/
theorem hookRangeGo_spec (d : Int) :
    ∀ (l : List RangeRule) (b : Nat), hookRangeGo d l = b → b ≠ 0 →
      ∃ l1 r l2, l = l1 ++ r :: l2 ∧ r.block = b ∧
        rangeRuleMatches r d = true ∧
        ∀ r2 ∈ l1,
          (rangeRuleMatches r2 d && decide (r2.block ≠ 0)) = false := by
  intro l
  induction l with
  | nil =>
    intro b h hb
    simp only [hookRangeGo] at h
    omega
  | cons r rest ih =>
    intro b h hb
    simp only [hookRangeGo] at h
    by_cases hc : (rangeRuleMatches r d && decide (r.block ≠ 0)) = true
    · rw [if_pos hc] at h
      have hcm := (Bool.and_eq_true _ _).mp hc
      exact ⟨[], r, rest, by simp, h, hcm.1, by simp⟩
    · rw [if_neg hc] at h
      obtain ⟨l1, rr, l2, hsplit, hblock, hmatch, hfail⟩ := ih b h hb
      refine ⟨r :: l1, rr, l2, by rw [hsplit]; rfl, hblock, hmatch, ?_⟩
      intro r2 hr2
      rcases List.mem_cons.mp hr2 with h2 | h2
      · subst h2
        exact Bool.not_eq_true _ ▸ Bool.of_not_eq_true hc
      · exact hfail r2 h2

/-- Claim C6 (corrected).  When several `BlockRangeRule`s match a slot,
`hook_range` assigns the block of the matching rule with the least
`start_time` (the rules are scanned in ascending `start_time` order and
the first truthy match wins) — block priority plays no part (see the
counterexample). -/
theorem hook_range_earliest_start_wins (rules : List RangeRule) (tz : TZ)
    (ts : Timeslot) (b : Nat) (h : hookRange rules tz ts = b)
    (hb : b ≠ 0) :
    ∃ r ∈ rules, r.block = b ∧
      rangeRuleMatches r (delta tz ts.start_time) = true ∧
      ∀ r2 ∈ rules, r2.start_time < r.start_time →
        (rangeRuleMatches r2 (delta tz ts.start_time) &&
          decide (r2.block ≠ 0)) = false := by
  unfold hookRange at h
  obtain ⟨l1, r, l2, hsplit, hblock, hmatch, hfail⟩ :=
    hookRangeGo_spec (delta tz ts.start_time)
      (List.insertionSort (fun a b => a.start_time ≤ b.start_time) rules)
      b h hb
  have hperm :=
    List.perm_insertionSort (fun a b => a.start_time ≤ b.start_time) rules
  have hsorted :=
    List.sorted_insertionSort (fun a b => a.start_time ≤ b.start_time) rules
  refine ⟨r, ?_, hblock, hmatch, ?_⟩
  · apply hperm.mem_iff.mp
    rw [hsplit]
    simp
  · intro r2 hr2 hlt
    have hr2l := hperm.mem_iff.mpr hr2
    rw [hsplit] at hr2l
    rcases List.mem_append.mp hr2l with h1 | h1
    · exact hfail r2 h1
    · rcases List.mem_cons.mp h1 with h2 | h2
      · subst h2
        omega
      · have hle : r.start_time ≤ r2.start_time := by
          have hp : List.Pairwise
              (fun a b => a.start_time ≤ b.start_time)
              (l1 ++ r :: l2) := by
            rw [← hsplit]
            exact hsorted
          exact (List.pairwise_cons.mp (List.pairwise_append.mp hp).2.1).1
            r2 h2
        omega

/-- Two overlapping range rules: block 7 from 0h-10h, block 9 from
4h-6h. -/
def rulesC6 : List RangeRule := [⟨7, 0, 36000⟩, ⟨9, 14400, 21600⟩]

/-- A slot at local 05:00, matched by both rules of `rulesC6`. -/
def slotC6 : Timeslot := { start_time := 18000, duration := 60 }

/-- Witness for C6 (amended) at a concrete input. -/
theorem hook_range_earliest_start_wins_witness :
    hookRange rulesC6 tzFixed slotC6 = 7 ∧ (7 : Nat) ≠ 0 ∧
      (∃ r ∈ rulesC6, r.block = 7 ∧
        rangeRuleMatches r (delta tzFixed slotC6.start_time) = true ∧
        ∀ r2 ∈ rulesC6, r2.start_time < r.start_time →
          (rangeRuleMatches r2 (delta tzFixed slotC6.start_time) &&
            decide (r2.block ≠ 0)) = false) :=
  ⟨by decide, by decide,
    hook_range_earliest_start_wins rulesC6 tzFixed slotC6 7 (by decide)
      (by decide)⟩

/-- The blocks behind `rulesC6`: block 7 has priority 5, block 9 has
priority 1 (i.e. block 9 is the higher-priority block). -/
def blocksC6 : List Block := [⟨7, 5⟩, ⟨9, 1⟩]

/-- Counterexample to C6 as stated: both rules match the 05:00 slot, the
rule for block 9 belongs to the strictly higher-priority block
(priority 1 < 5), yet `hook_range` assigns block 7 — the rule with the
earlier `start_time`. -/
theorem hook_range_priority_counterexample :
    rangeRuleMatches ⟨7, 0, 36000⟩ (delta tzFixed slotC6.start_time)
        = true ∧
      rangeRuleMatches ⟨9, 14400, 21600⟩ (delta tzFixed slotC6.start_time)
        = true ∧
      lookupBlock blocksC6 9 = some ⟨9, 1⟩ ∧
      lookupBlock blocksC6 7 = some ⟨7, 5⟩ ∧ ((1 : Int) < 5) ∧
      hookRange rulesC6 tzFixed slotC6 = 7 ∧ (7 : Nat) ≠ 9 := by
  refine ⟨by decide, by decide, by decide, by decide, by decide,
    by decide, by decide⟩

/-! ## Claim C8 -/

/-- Cells other than the written row are unchanged by `writeCell`. -/
theorem writeCell_ne (c : Nat → Option (Timeslot × Nat)) (row : Nat)
    (slot : Timeslot) (span : Nat) (j : Nat) (h : j ≠ row) :
    writeCell c row slot span j = c j := by
  unfold writeCell
  by_cases hs : 0 < span
  · rw [if_pos hs]
    simp only [if_neg h]
  · rw [if_neg hs]

/-- A zero-span write is a no-op. -/
theorem writeCell_zero (c : Nat → Option (Timeslot × Nat)) (row : Nat)
    (slot : Timeslot) (j : Nat) : writeCell c row slot 0 j = c j := by
  unfold writeCell
  rw [if_neg (by omega)]

/-- A positive-span write lands at its row. -/
theorem writeCell_self (c : Nat → Option (Timeslot × Nat)) (row : Nat)
    (slot : Timeslot) (span : Nat) (h : 0 < span) :
    writeCell c row slot span row = some (slot, span) := by
  unfold writeCell
  rw [if_pos h]
  simp

/-- A successful `popStep` advances the row pointer and writes (at most)
at the old row pointer. -/
theorem popStep_ok_parts (tz : TZ) (times : List Int) (off : Int)
    (r : Nat) (c : Nat → Option (Timeslot × Nat)) (slot : Timeslot)
    (st2 : Nat × (Nat → Option (Timeslot × Nat)))
    (h : popStep tz times off (r, c) slot = .ok st2) :
    r ≤ st2.1 ∧ (∀ j, j < r → st2.2 j = c j) ∧
      (∀ j, st2.1 ≤ j → st2.2 j = c j) := by
  unfold popStep at h
  simp only [] at h
  by_cases hc : (r + advanceCount off (nld tz slot.end_time)
        (times.drop r) < times.length ∧
      nld tz slot.end_time <
        times.getD (r + advanceCount off (nld tz slot.end_time)
          (times.drop r)) 0 + off)
  · rw [if_pos hc] at h
    exact absurd h (by simp)
  · rw [if_neg hc] at h
    have h2 := Except.ok.inj h
    rw [← h2]
    refine ⟨?_, ?_, ?_⟩
    · exact Nat.le_add_right r _
    · intro j hj
      exact writeCell_ne c r slot _ j (by omega)
    · intro j hj
      simp only [] at hj
      rcases Nat.eq_zero_or_pos
          (advanceCount off (nld tz slot.end_time) (times.drop r)) with
        hz | hp
      · have hs0 : r + advanceCount off (nld tz slot.end_time)
            (times.drop r) - r = 0 := by omega
        rw [hs0]
        exact writeCell_zero c r slot j
      · exact writeCell_ne c r slot _ j (by omega)

/-- Folding `popStep` over a day: the row pointer is monotone, cells
below the starting pointer are untouched, and the
everything-from-here-up-is-`none` invariant is preserved. -/
theorem foldPop_props (tz : TZ) (times : List Int) (off : Int) :
    ∀ (day : List Timeslot) (r : Nat) (c : Nat → Option (Timeslot × Nat))
      (st2 : Nat × (Nat → Option (Timeslot × Nat))),
      List.foldlM (popStep tz times off) (r, c) day = .ok st2 →
      r ≤ st2.1 ∧ (∀ j, j < r → st2.2 j = c j) ∧
        ((∀ j, r ≤ j → c j = none) → ∀ j, st2.1 ≤ j → st2.2 j = none) := by
  intro day
  induction day with
  | nil =>
    intro r c st2 h
    have h2 : (r, c) = st2 := Except.ok.inj h
    rw [← h2]
    exact ⟨le_refl r, fun j _ => rfl, fun hc j hj => hc j hj⟩
  | cons s rest ih =>
    intro r c st2 h
    rw [List.foldlM_cons] at h
    cases hstep : popStep tz times off (r, c) s with
    | error er =>
      rw [hstep] at h
      exact absurd h (by simp [Bind.bind, Except.bind])
    | ok st1 =>
      rw [hstep] at h
      have hbind : List.foldlM (popStep tz times off) st1 rest
          = .ok st2 := h
      obtain ⟨hr1, hlow1, hhigh1⟩ :=
        popStep_ok_parts tz times off r c s st1 hstep
      obtain ⟨hr2, hlow2, hinv2⟩ := ih st1.1 st1.2 st2 hbind
      refine ⟨le_trans hr1 hr2, ?_, ?_⟩
      · intro j hj
        rw [hlow2 j (by omega), hlow1 j hj]
      · intro hc j hj
        refine hinv2 ?_ j hj
        intro j2 hj2
        rw [hhigh1 j2 hj2]
        exact hc j2 (by omega)

/-- Claim C8 (confirmed).  In week tabulation, a non-collapsible slot
whose local start sits on row boundary `i` (reached after the preceding
slots) and whose local end sits exactly on boundary `i + 2` occupies the
single cell at row `i` with row-span 2, and row `i + 1`'s cell for that
day stays `None`. -/
theorem week_table_row_merge (tz : TZ) (times : List Int) (off : Int)
    (pre suf : List Timeslot) (s : Timeslot) (i : Nat)
    (c : Nat → Option (Timeslot × Nat))
    (hcol : s.is_collapsible = false)
    (hpre : List.foldlM (popStep tz times off) ((0 : Nat), initCells) pre
      = .ok (i, c))
    (hlen : i + 2 < times.length)
    (hstart : times.getD i 0 + off = nld tz s.start_time)
    (h01 : times.getD i 0 < times.getD (i + 1) 0)
    (h12 : times.getD (i + 1) 0 < times.getD (i + 2) 0)
    (hend : times.getD (i + 2) 0 + off = nld tz s.end_time)
    (hok : (populate_table_day tz times off (pre ++ s :: suf)).isOk
      = true) :
    cellsAt (populate_table_day tz times off (pre ++ s :: suf)) i
        = some (some (s, 2)) ∧
      cellsAt (populate_table_day tz times off (pre ++ s :: suf)) (i + 1)
        = some none := by
  have hlen0 : i < times.length := by omega
  have hlen1 : i + 1 < times.length := by omega
  have hg0 : times.getD i 0 = times[i] :=
    List.getD_eq_getElem times 0 hlen0
  have hg1 : times.getD (i + 1) 0 = times[i + 1] :=
    List.getD_eq_getElem times 0 hlen1
  have hg2 : times.getD (i + 2) 0 = times[i + 2] :=
    List.getD_eq_getElem times 0 hlen
  -- The row walk from row i advances exactly two rows.
  have hdrop : times.drop i
      = times[i] :: times[i + 1] :: times[i + 2] :: times.drop (i + 3) := by
    rw [List.drop_eq_getElem_cons hlen0, List.drop_eq_getElem_cons hlen1,
      List.drop_eq_getElem_cons hlen]
  have hadv : advanceCount off (nld tz s.end_time) (times.drop i) = 2 := by
    rw [hdrop]
    simp only [advanceCount]
    rw [if_pos (by omega), if_pos (by omega), if_neg (by omega)]
  -- The step on s itself.
  have hstep : popStep tz times off (i, c) s
      = .ok (i + 2, writeCell c i s 2) := by
    unfold popStep
    simp only []
    rw [hadv]
    rw [if_neg (by omega)]
    have hsub : i + 2 - i = 2 := by omega
    rw [hsub]
  -- Split the full fold at s.
  cases hall : List.foldlM (popStep tz times off) ((0 : Nat), initCells)
      (pre ++ s :: suf) with
  | error er =>
    unfold populate_table_day at hok
    rw [hall] at hok
    exact absurd hok (by simp [Except.isOk, Except.toBool])
  | ok stfin =>
    have hsplit : List.foldlM (popStep tz times off)
        ((i : Nat) + 2, writeCell c i s 2) suf = .ok stfin := by
      rw [List.foldlM_append, hpre] at hall
      have hall2 : List.foldlM (popStep tz times off) (i, c) (s :: suf)
          = .ok stfin := hall
      rw [List.foldlM_cons, hstep] at hall2
      exact hall2
    obtain ⟨hrf, hlowf, _⟩ :=
      foldPop_props tz times off suf _ _ stfin hsplit
    have hcnone : ∀ j, i ≤ j → c j = none := by
      obtain ⟨_, _, hinv⟩ := foldPop_props tz times off pre _ _ _ hpre
      exact hinv (fun _ _ => rfl)
    have hfi : stfin.2 i = some (s, 2) := by
      rw [hlowf i (by omega)]
      exact writeCell_self c i s 2 (by omega)
    have hfi1 : stfin.2 (i + 1) = none := by
      rw [hlowf (i + 1) (by omega)]
      rw [writeCell_ne c i s 2 (i + 1) (by omega)]
      exact hcnone (i + 1) (by omega)
    unfold populate_table_day cellsAt
    rw [hall]
    simp only []
    exact ⟨by rw [hfi], by rw [hfi1]⟩

/-- Three hourly row boundaries. -/
def timesC8 : List Int := [0, 3600, 7200]

/-- A two-hour non-collapsible slot starting on boundary 0 and ending
exactly on boundary 2. -/
def slotC8 : Timeslot := { start_time := 0, duration := 7200 }

/-- Witness for C8 at a concrete input. -/
theorem week_table_row_merge_witness :
    slotC8.is_collapsible = false ∧
      List.foldlM (popStep tzFixed timesC8 0) ((0 : Nat), initCells)
        ([] : List Timeslot) = .ok (0, initCells) ∧
      (0 : Nat) + 2 < timesC8.length ∧
      timesC8.getD 0 0 + 0 = nld tzFixed slotC8.start_time ∧
      timesC8.getD 0 0 < timesC8.getD 1 0 ∧
      timesC8.getD 1 0 < timesC8.getD 2 0 ∧
      timesC8.getD 2 0 + 0 = nld tzFixed slotC8.end_time ∧
      (populate_table_day tzFixed timesC8 0
        ([] ++ slotC8 :: [])).isOk = true ∧
      cellsAt (populate_table_day tzFixed timesC8 0 ([] ++ slotC8 :: [])) 0
        = some (some (slotC8, 2)) ∧
      cellsAt (populate_table_day tzFixed timesC8 0 ([] ++ slotC8 :: [])) 1
        = some none := by
  have h := week_table_row_merge tzFixed timesC8 0 [] [] slotC8 0 initCells
    rfl rfl (by decide) (by decide) (by decide) (by decide) (by decide) rfl
  exact ⟨rfl, rfl, by decide, by decide, by decide, by decide, by decide,
    rfl, h.1, h.2⟩

end LassSchedule
